import Mathlib

set_option maxHeartbeats 1000000

/-!
Verification of the DPMM core of src/src/lib.rs: the Dpmm orchestrator with
its remove / insert / step / sort algorithm (collapsed Gibbs sampling over a
Chinese Restaurant Process prior).

The Rust code builds on the external rv crate (rv::data::Partition,
rv::dist::Crp, rv::ConjugateModel, rv::misc::ln_pflip); those collaborators
are not part of this repository's sources, so they are modelled from the
spec's component descriptions (sections 3, 4.1, 4.2 and the glossary), with
doc comments marking each such definition.

Floating-point quantities (log-weights, posterior-predictive values, the
hyperparameters of the conjugate prior) are not representable; only their
control-flow-relevant structure is kept: a log-weight vector is modelled by
its spine (a list of units, so its length is faithful), the categorical draw
ln_pflip is modelled as returning an arbitrary in-range index driven by the
randomness source, and the concentration parameter is carried as an exact
rational so the sign test at construction is faithful.

A randomness source is modelled as the stream of raw draws it will produce:
a list of naturals, one consumed per primitive sampling call.  Rust panics
(expect, assert!, out-of-bounds vector indexing) are modelled as Option.none;
a normal return is some.
-/

/-- Model of a pseudo-random source: the next raw draw and the rest of the
stream.  An exhausted stream keeps yielding 0 (any fixed stream models one
concrete reproducible run of the Rust generator). -/
def rngNext (rng : List Nat) : Nat × List Nat :=
  match rng with
  | [] => (0, [])
  | c :: rest => (c, rest)

/-- Modelled from the spec: drawing a candidate parameter set from the shared
ClusterPrior ("draws candidate component parameter sets").  The drawn
parameters are marginalized away and never influence the discrete state, so
only the consumption of one unit of randomness is modelled. -/
def priorDraw (rng : List Nat) : List Nat := (rngNext rng).2

/-- Modelled from the spec: rv::dist::Crp, the Chinese Restaurant Process
prior object.  It carries the concentration alpha (exact rational, so the
construction-time sign check is faithful) and the number of customers n. -/
structure Crp where
  alpha : ℚ
  n : Nat
  deriving DecidableEq

/-- Modelled from the spec: rv::data::Partition, "assignment vector mapping
each datum's current position to a cluster id, plus per-cluster counts and
cluster count k". -/
structure Partition where
  z : List Nat
  counts : List Nat
  deriving DecidableEq

/-- The number of live clusters: rv keeps k equal to the length of the counts
vector. -/
def Partition.k (p : Partition) : Nat := p.counts.length

/-- Modelled from the spec: Partition::remove(pos) "deletes the entry at
position pos from the assignment sequence"; if the removed entry's cluster
count reaches zero the cluster slot is evicted and all higher cluster ids are
relabelled downward by one (spec 4.3 step 4), otherwise the count is
decremented.  none models the rv error / out-of-range index. -/
def Partition.remove (p : Partition) (pos : Nat) : Option Partition :=
  match p.z.get? pos with
  | none => none
  | some zi =>
    match p.counts.get? zi with
    | none => none
    | some c =>
      let z1 := p.z.eraseIdx pos
      if c = 1 then
        some { z := z1.map (fun zj => if zi < zj then zj - 1 else zj),
               counts := p.counts.eraseIdx zi }
      else
        some { z := z1, counts := p.counts.set zi (c - 1) }

/-- Modelled from the spec: Partition::append(clusterId) "appends a new
assignment entry"; appending id k opens a fresh cluster with count 1, an
existing id has its count incremented, and an id beyond k is an error
(modelled as none, which Dpmm::insert turns into a panic via expect). -/
def Partition.append (p : Partition) (zi : Nat) : Option Partition :=
  if p.k < zi then none
  else if zi = p.k then
    some { z := p.z ++ [zi], counts := p.counts ++ [1] }
  else
    some { z := p.z ++ [zi], counts := p.counts.set zi (p.counts.getD zi 0 + 1) }

/-- Modelled from the spec: Crp::new validates its parameters, rejecting a
non-positive concentration and an empty dataset ("invalid concentration
(alpha <= 0), empty dataset" are construction-time errors). -/
def Crp.new (alpha : ℚ) (n : Nat) : Except String Crp :=
  if alpha ≤ 0 then Except.error "alpha must be greater than zero"
  else if n = 0 then Except.error "n must be greater than zero"
  else Except.ok { alpha := alpha, n := n }

/-- One seating decision of the sequential CRP draw: the next customer picks
one of the k existing tables or the new table; which one is a random choice,
modelled as an arbitrary in-range index taken from the randomness stream. -/
def crpDrawStep (st : Partition × List Nat) : Partition × List Nat :=
  let (c, rng1) := rngNext st.2
  let p := st.1
  let zi := c % (p.k + 1)
  if zi = p.k then ({ z := p.z ++ [zi], counts := p.counts ++ [1] }, rng1)
  else ({ z := p.z ++ [zi], counts := p.counts.set zi (p.counts.getD zi 0 + 1) }, rng1)

/-- Modelled from the spec: drawing an initial partition from CRP(alpha, n)
("construction draws an initial partition from the CRP prior").  The first
customer sits at table 0; each later customer makes one seating decision. -/
def Crp.draw (crp : Crp) (rng : List Nat) : Partition × List Nat :=
  if crp.n = 0 then ({ z := [], counts := [] }, rng)
  else (List.range (crp.n - 1)).foldl (fun st _ => crpDrawStep st)
    ({ z := [0], counts := [1] }, rng)

/-- Modelled from the spec: rv::ConjugateModel, "prior reference plus running
sufficient statistics over its assigned data; supports observe, forget,
posterior-predictive log-probability, and count".  The sufficient statistic
is modelled as the observation count n together with the multiset of
contributions folded in; ln_pp is a float and is not modelled (it only feeds
the log-weight vector, whose numeric content never influences the discrete
state model). -/
structure ConjugateModel (X : Type) where
  n : Nat
  obs : Multiset X
  deriving DecidableEq

/-- A freshly created component: empty sufficient statistics. -/
def ConjugateModel.empty {X : Type} : ConjugateModel X := { n := 0, obs := 0 }

/-- Modelled from the spec: observe(x) "folds x into sufficient statistics;
count += 1". -/
def ConjugateModel.observe {X : Type} (c : ConjugateModel X) (x : X) :
    ConjugateModel X :=
  { n := c.n + 1, obs := x ::ₘ c.obs }

/-- Modelled from the spec: forget(x) "removes x's contribution (exact
inverse of observe)"; the count decrement saturates at 0 in the model (in
Rust a forget at count 0 is a programming error). -/
def ConjugateModel.forget {X : Type} [DecidableEq X] (c : ConjugateModel X)
    (x : X) : ConjugateModel X :=
  { n := c.n - 1, obs := c.obs.erase x }

/-- Modelled from the spec: rv::misc::ln_pflip, the numerically stable
log-domain categorical draw (spec 4.3 step 3).  The log-weight values are
floats and are not modelled; what is modelled is that the draw returns an
index of the weight vector, any of which the randomness source may select. -/
def lnPflip (lnWeights : List Unit) (rng : List Nat) : Nat × List Nat :=
  ((rngNext rng).1 % lnWeights.length, (rngNext rng).2)

/-- Point update of a list: components[i] receives f (a no-op when i is out
of range; every use in this development is proved in range, matching the
Rust indexing which would panic otherwise). -/
def modifyAt {α : Type} (l : List α) (i : Nat) (f : α → α) : List α :=
  match l.get? i with
  | some a => l.set i (f a)
  | none => l

/-- The Dpmm state of src/src/lib.rs lines 353-370: the data xs, the
original-index tracking sequence ixs, the CRP prior, the current partition,
and the vector of component models (the shared prior object carries only
unmodelled float hyperparameters and is omitted). -/
structure Dpmm (X : Type) where
  xs : List X
  ixs : List Nat
  crp : Crp
  partition : Partition
  components : List (ConjugateModel X)
  deriving DecidableEq

/-- Number of data (Dpmm::n, lines 416-418). -/
def Dpmm.n {X : Type} (d : Dpmm X) : Nat := d.xs.length

/-- Total sufficient-statistics mass: the sum over all components of their
observation counts. -/
def Dpmm.mass {X : Type} (d : Dpmm X) : Nat :=
  (d.components.map fun c => c.n).sum

/-- Dpmm::new (lines 378-413): validate CRP parameters (expect = panic on
error, modelled as none), draw an initial partition, create one empty
component per cluster (each creation draws a template from the prior), then
replay the assignments in order, observing each datum into its cluster's
component. -/
def componentsFor (X : Type) (k : Nat) (rng : List Nat) :
    List (ConjugateModel X) × List Nat :=
  (List.range k).foldl
    (fun st _ => (st.1 ++ [ConjugateModel.empty], priorDraw st.2))
    ([], rng)

/-- The replay loop of Dpmm::new lines 401-403: each datum is observed into
the component its drawn assignment names. -/
def replayObserve {X : Type} (cs : List (ConjugateModel X)) (xs : List X)
    (zs : List Nat) : List (ConjugateModel X) :=
  (xs.zip zs).foldl (fun cs p => modifyAt cs p.2 (fun c => c.observe p.1)) cs

/-- Dpmm::new itself.  none models the panic of expect("Invalid params"). -/
def Dpmm.new {X : Type} (xs : List X) (alpha : ℚ) (rng : List Nat) :
    Option (Dpmm X × List Nat) :=
  match Crp.new alpha xs.length with
  | Except.error _ => none
  | Except.ok crp =>
    let pr := crp.draw rng
    let mc := componentsFor X pr.1.k pr.2
    let cs := replayObserve mc.1 xs pr.1.z
    some ({ xs := xs, ixs := List.range xs.length, crp := crp,
            partition := pr.1, components := cs }, mc.2)

/-- Dpmm::remove (lines 422-440): read the datum, its tracked index and its
cluster at pos; check singleton status against the pre-removal counts;
remove the slot from the partition; then either evict the whole component
(singleton) or have it forget the datum, asserting its count stays positive.
none models the panics (out-of-range indexing, expect, assert!). -/
def Dpmm.remove {X : Type} [DecidableEq X] (d : Dpmm X) (pos : Nat) :
    Option ((X × Nat) × Dpmm X) :=
  match d.xs.get? pos, d.ixs.get? pos, d.partition.z.get? pos with
  | some x, some ix, some zi =>
    match d.partition.counts.get? zi with
    | none => none
    | some cnt =>
      match d.partition.remove pos with
      | none => none
      | some p1 =>
        if cnt = 1 then
          if zi < d.components.length then
            some ((x, ix),
              { d with xs := d.xs.eraseIdx pos, ixs := d.ixs.eraseIdx pos,
                       partition := p1,
                       components := d.components.eraseIdx zi })
          else none
        else
          match d.components.get? zi with
          | none => none
          | some comp =>
            let comp1 := comp.forget x
            if 0 < comp1.n then
              some ((x, ix),
                { d with xs := d.xs.eraseIdx pos, ixs := d.ixs.eraseIdx pos,
                         partition := p1,
                         components := d.components.set zi comp1 })
            else none
  | _, _, _ => none

/-- The cluster id sampled inside Dpmm::insert: ln_pflip over the k existing
clusters' log-weights (built by zipping counts with components) plus the one
candidate-cluster weight pushed at the end.  The log-weight values are
unmodelled floats; the spine of the vector is kept so its length (and hence
the range of the sampled index) is faithful. -/
def Dpmm.insertZi {X : Type} (d : Dpmm X) (rng : List Nat) : Nat :=
  let lnWeights : List Unit :=
    ((d.partition.counts.zip d.components).map fun _ => ()) ++ [()]
  (lnPflip lnWeights (priorDraw rng)).1

/-- Dpmm::insert (lines 445-476): sample zi; if zi equals the current number
of clusters, observe the datum into the provisional candidate component and
push it; then observe the datum into components[zi] (note the source observes
the datum into a newly created component a second time here), push x and ix,
and append zi to the partition (expect = panic on error, modelled none). -/
def Dpmm.insert {X : Type} (d : Dpmm X) (x : X) (ix : Nat) (rng : List Nat) :
    Option (Dpmm X × List Nat) :=
  let zi := d.insertZi rng
  let rng2 := (rngNext (priorDraw rng)).2
  let cs :=
    if zi = d.partition.k then d.components ++ [ConjugateModel.empty.observe x]
    else d.components
  let cs2 := modifyAt cs zi (fun c => c.observe x)
  match d.partition.append zi with
  | none => none
  | some p1 =>
    some ({ d with xs := d.xs ++ [x], ixs := d.ixs ++ [ix],
                   partition := p1, components := cs2 }, rng2)

/-- Dpmm::step (lines 479-482): remove at pos, then insert the removed datum
with its original index. -/
def Dpmm.step {X : Type} [DecidableEq X] (d : Dpmm X) (pos : Nat)
    (rng : List Nat) : Option (Dpmm X × List Nat) :=
  match d.remove pos with
  | none => none
  | some ((x, ix), d1) => d1.insert x ix rng

/-- Swap two positions of a list (Vec::swap); out-of-range indices leave the
list unchanged (Rust would panic; every use here is proved in range). -/
def listSwap {α : Type} (l : List α) (i j : Nat) : List α :=
  match l.get? i, l.get? j with
  | some a, some b => (l.set i b).set j a
  | _, _ => l

/-- The simultaneous swap of Dpmm::sort's loop body (lines 506-509): ixs, the
partition's assignment vector and xs are swapped together. -/
def Dpmm.swapAt {X : Type} (d : Dpmm X) (i j : Nat) : Dpmm X :=
  { d with ixs := listSwap d.ixs i j,
           partition := { z := listSwap d.partition.z i j,
                          counts := d.partition.counts },
           xs := listSwap d.xs i j }

/-- The inner while loop of Dpmm::sort at position i ("while ixs[i] != i,
swap i with ixs[i]"), run on fuel; the second component counts the swaps
performed (instrumentation for the resource bound).  Reaching the guard-false
state certifies that the unbounded Rust loop terminates with this result. -/
def sortWhile {X : Type} (fuel i : Nat) (d : Dpmm X) : Dpmm X × Nat :=
  match fuel with
  | 0 => (d, 0)
  | fuel1 + 1 =>
    let j := d.ixs.getD i i
    if j = i then (d, 0)
    else
      let r := sortWhile fuel1 i (d.swapAt i j)
      (r.1, r.2 + 1)

/-- The outer for loop of Dpmm::sort over the listed positions, accumulating
the swap count. -/
def sortLoop {X : Type} (fuel : Nat) : List Nat → Dpmm X → Dpmm X × Nat
  | [], d => (d, 0)
  | i :: rest, d =>
    let r1 := sortWhile fuel i d
    let r2 := sortLoop fuel rest r1.1
    (r2.1, r1.2 + r2.2)

/-- Dpmm::sort (lines 500-512): for i in 0..n, cycle-follow until ixs[i] = i.
The fuel n suffices for every inner loop (proved below); the second component
is the total number of swaps performed. -/
def Dpmm.sort {X : Type} (d : Dpmm X) : Dpmm X × Nat :=
  sortLoop d.n (List.range d.n) d

/-- The number of positions whose tracked index is not yet home; the
termination measure of sort's cycle-following. -/
def misplaced (ixs : List Nat) : Nat :=
  (List.range ixs.length).countP fun m => ixs.getD m 0 != m

/-- The three parallel sequences fused positionally: what sort permutes. -/
def Dpmm.triples {X : Type} (d : Dpmm X) : List (Nat × Nat × X) :=
  d.ixs.zip (d.partition.z.zip d.xs)

/-- Validity of a partition, from the spec's data-model invariants: each live
cluster's stored count is the number of assignment entries naming it, every
assignment names a live cluster, and no zero-count cluster persists. -/
structure PartValid (p : Partition) : Prop where
  counts_eq : ∀ j, j < p.counts.length → p.counts.getD j 0 = p.z.count j
  z_lt : ∀ zi, zi ∈ p.z → zi < p.counts.length
  counts_pos : ∀ j, j < p.counts.length → 0 < p.counts.getD j 0

/-- The one-datum model used as concrete failing input: exactly the state
Dpmm::new builds from the dataset [5] with alpha = 1. -/
def D0 : Dpmm Int :=
  { xs := [5], ixs := [0], crp := { alpha := 1, n := 1 },
    partition := { z := [0], counts := [1] },
    components := [{ n := 1, obs := {5} }] }

/-- The state one step(0) later: the reborn singleton cluster's component has
observed the datum twice. -/
def D1 : Dpmm Int :=
  { xs := [5], ixs := [0], crp := { alpha := 1, n := 1 },
    partition := { z := [0], counts := [1] },
    components := [{ n := 2, obs := {5, 5} }] }

/-- A two-datum model whose data are out of submission order (as they would
be after a sweep), used as concrete input for the sort theorems. -/
def D4 : Dpmm Int :=
  { xs := [10, 20], ixs := [1, 0], crp := { alpha := 1, n := 2 },
    partition := { z := [0, 0], counts := [2] },
    components := [{ n := 2, obs := {10, 20} }] }

/-- A two-datum model with a single two-member cluster, used as concrete
input for the non-singleton removal theorem. -/
def D9 : Dpmm Int :=
  { xs := [7, 7], ixs := [0, 1], crp := { alpha := 1, n := 2 },
    partition := { z := [0, 0], counts := [2] },
    components := [{ n := 2, obs := {7, 7} }] }

/-- Claim C1 (evaluation of the code at the failing input): Dpmm::new on the
single dataset [5] with alpha = 1 builds exactly D0, where the invariant
holds (the only component's count is 1 = partitionCounts[0], and the counts
sum to n = 1); one complete step (remove then insert) at position 0 then
yields a state whose only component has observation count 2 while its
cluster's partition count is 1.  The invariant claimed for every complete
step is broken: insert observes a datum entering a newly created cluster
twice (once into ctmp before the push, once via components[zi]). -/
theorem dpmm_step_breaks_count_invariant :
    Dpmm.new ([5] : List Int) 1 [] = some (D0, []) ∧
    (D0.components.map fun c => c.n) = [1] ∧ D0.partition.counts = [1] ∧
    (D0.step 0 []).map (fun r => ((r.1.components.map fun c => c.n),
      r.1.partition.counts)) = some ([2], [1]) := by decide

/-- Claim C3 (evaluation of the code at the failing input): at D0 (one datum,
one cluster, total sufficient-statistics mass 1), remove(0) immediately
followed by insert of the returned datum at its returned original index (one
step) keeps n = 1 but raises the total mass from 1 to 2, because the insert
path that creates a new cluster observes the datum twice; mass preservation
fails. -/
theorem dpmm_roundtrip_mass_not_preserved :
    D0.mass = 1 ∧ D0.n = 1 ∧
    (D0.step 0 []).map (fun r => (r.1.mass, r.1.n)) = some (2, 1) := by
  decide

/-- Claim C2 (amended): construction of a Dpmm with invalid concentration
(alpha <= 0) or an empty dataset panics -- expect("Invalid params") on the
Crp construction error, modelled as none -- terminating the program rather
than returning a recoverable error value (Dpmm::new has no error channel). -/
theorem dpmm_new_invalid_inputs_panic {X : Type} (xs : List X) (alpha : ℚ)
    (rng : List Nat) (h : alpha ≤ 0 ∨ xs = []) :
    Dpmm.new xs alpha rng = none := by
  rcases h with h | h
  · unfold Dpmm.new Crp.new
    simp [h]
  · subst h
    unfold Dpmm.new Crp.new
    by_cases ha : alpha ≤ 0 <;> simp [ha]

/-- Claim C2 witness for the amended statement: the empty dataset with the
valid concentration 1 makes Dpmm::new panic. -/
theorem dpmm_new_invalid_inputs_panic_witness :
    Dpmm.new ([] : List Int) 1 [] = none :=
  dpmm_new_invalid_inputs_panic [] 1 [] (Or.inr rfl)

/-- Claim C2 counterexample to the claim as stated: at the concrete invalid
input alpha = 0 (dataset [5]), Dpmm::new ends in the panic of
expect("Invalid params") (modelled as none); no recoverable error value is
reported to the caller. -/
theorem dpmm_new_alpha_zero_panics_cex :
    Dpmm.new ([5] : List Int) 0 [] = none := by decide

/-- The get? of a zip is the pairing of the get?s. -/
theorem get?_zip_eq {α β : Type} (l1 : List α) (l2 : List β) :
    ∀ m, (l1.zip l2).get? m
      = (l1.get? m).bind fun a => (l2.get? m).map fun b => (a, b) := by
  induction l1 generalizing l2 with
  | nil => intro m; simp
  | cons a t ih =>
    intro m
    cases l2 with
    | nil => cases m <;> simp
    | cons b s =>
      cases m with
      | zero => simp [List.zip_cons_cons]
      | succ m => simpa [List.zip_cons_cons] using ih s m

/-- Writing back the value already stored leaves the list unchanged. -/
theorem set_of_get?_eq {α : Type} {l : List α} {i : Nat} {a : α}
    (h : l.get? i = some a) : l.set i a = l := by
  apply List.ext
  intro m
  rcases eq_or_ne i m with rfl | hne
  · rw [List.get?_set_eq, h]
    rfl
  · rw [List.get?_set_ne _ l hne]

/-- listSwap preserves length. -/
theorem length_listSwap {α : Type} (l : List α) (i j : Nat) :
    (listSwap l i j).length = l.length := by
  unfold listSwap
  split <;> simp

/-- With both positions readable, listSwap is the double set. -/
theorem listSwap_eq_set_set {α : Type} {l : List α} {i j : Nat} {a b : α}
    (hi : l.get? i = some a) (hj : l.get? j = some b) :
    listSwap l i j = (l.set i b).set j a := by
  unfold listSwap
  rw [hi, hj]

/-- Pointwise description of a swap of two distinct in-range positions. -/
theorem get?_listSwap_of_ne {α : Type} {l : List α} {i j : Nat} {a b : α}
    (hij : i ≠ j) (hi : l.get? i = some a) (hj : l.get? j = some b) :
    ∀ m, (listSwap l i j).get? m =
      if m = j then some a else if m = i then some b else l.get? m := by
  intro m
  rw [listSwap_eq_set_set hi hj]
  rcases eq_or_ne m j with rfl | hmj
  · rw [if_pos rfl, List.get?_set_eq, List.get?_set_ne b l hij, hj]
    rfl
  · rw [if_neg hmj, List.get?_set_ne a (l.set i b) (fun h => hmj h.symm)]
    rcases eq_or_ne m i with rfl | hmi
    · rw [if_pos rfl, List.get?_set_eq, hi]
      rfl
    · rw [if_neg hmi, List.get?_set_ne b l (fun h => hmi h.symm)]

/-- Prepending the value stored at a position in front of the list updated
at that position is a permutation of prepending the new value. -/
theorem get_cons_set_perm {α : Type} :
    ∀ (t : List α) (j : Nat) (x b : α), t.get? j = some b →
      List.Perm (b :: t.set j x) (x :: t) := by
  intro t
  induction t with
  | nil =>
    intro j x b hb
    cases hb
  | cons a s ih =>
    intro j x b hb
    cases j with
    | zero =>
      have hab : a = b := by simpa using hb
      subst hab
      exact List.Perm.swap x a s
    | succ j =>
      have hb' : s.get? j = some b := hb
      have h1 : b :: (a :: s).set (j + 1) x = b :: a :: s.set j x := rfl
      rw [h1]
      exact ((List.Perm.swap a b (s.set j x)).trans
        (List.Perm.cons a (ih j x b hb'))).trans (List.Perm.swap x a s)

/-- Swapping the contents of two in-range positions permutes the list. -/
theorem set_set_swap_perm {α : Type} :
    ∀ (l : List α) (i j : Nat) (a b : α), l.get? i = some a →
      l.get? j = some b → List.Perm ((l.set i b).set j a) l := by
  intro l
  induction l with
  | nil =>
    intro i j a b hi
    cases hi
  | cons x t ih =>
    intro i j a b hi hj
    cases i with
    | zero =>
      have hxa : x = a := by simpa using hi
      subst hxa
      cases j with
      | zero =>
        have hxb : x = b := by simpa using hj
        subst hxb
        exact List.Perm.refl _
      | succ j =>
        have hj' : t.get? j = some b := hj
        have h1 : ((x :: t).set 0 b).set (j + 1) x = b :: t.set j x := rfl
        rw [h1]
        exact get_cons_set_perm t j x b hj'
    | succ i =>
      have hi' : t.get? i = some a := hi
      cases j with
      | zero =>
        have hxb : x = b := by simpa using hj
        subst hxb
        have h1 : ((x :: t).set (i + 1) x).set 0 a = a :: t.set i x := rfl
        rw [h1]
        exact get_cons_set_perm t i x a hi'
      | succ j =>
        have hj' : t.get? j = some b := hj
        have h1 : ((x :: t).set (i + 1) b).set (j + 1) a
            = x :: (t.set i b).set j a := rfl
        rw [h1]
        exact List.Perm.cons x (ih i j a b hi' hj')

/-- listSwap permutes the list (out-of-range swaps are the identity). -/
theorem listSwap_perm {α : Type} (l : List α) (i j : Nat) :
    List.Perm (listSwap l i j) l := by
  rcases hi : l.get? i with _ | a
  · have h1 : listSwap l i j = l := by
      unfold listSwap
      rw [hi]
    rw [h1]
  · rcases hj : l.get? j with _ | b
    · have h1 : listSwap l i j = l := by
        unfold listSwap
        rw [hi, hj]
      rw [h1]
    · rw [listSwap_eq_set_set hi hj]
      exact set_set_swap_perm l i j a b hi hj

/-- In a duplicate-free list, a value determines its position. -/
theorem nodup_get?_inj {α : Type} {l : List α} (hn : l.Nodup) {i j : Nat}
    {a : α} (hi : l.get? i = some a) (hj : l.get? j = some a) : i = j := by
  obtain ⟨hi1, hi2⟩ := List.get?_eq_some.mp hi
  obtain ⟨hj1, hj2⟩ := List.get?_eq_some.mp hj
  have h := List.nodup_iff_injective_get.mp hn (hi2.trans hj2.symm)
  exact congrArg Fin.val h

/-- A count strictly drops when the predicate weakens pointwise and some
listed element loses it. -/
theorem countP_lt_of_witness {α : Type} (p q : α → Bool) :
    ∀ (l : List α), (∀ a, a ∈ l → q a = true → p a = true) →
      ∀ a0, a0 ∈ l → p a0 = true → q a0 = false →
      List.countP q l < List.countP p l := by
  intro l
  induction l with
  | nil =>
    intro _ a0 ha0
    cases ha0
  | cons x t ih =>
    intro himp a0 ha0 hp hq
    rw [List.countP_cons, List.countP_cons]
    rcases List.mem_cons.mp ha0 with rfl | hmem
    · have hle : List.countP q t ≤ List.countP p t :=
        List.countP_mono_left fun a ha hqa => himp a (List.mem_cons_of_mem _ ha) hqa
      rw [if_neg (by simp [hq]), if_pos hp]
      omega
    · have hlt : List.countP q t < List.countP p t :=
        ih (fun a ha hqa => himp a (List.mem_cons_of_mem _ ha) hqa) a0 hmem hp hq
      have hx : (if q x = true then 1 else 0) ≤ (if p x = true then 1 else 0) := by
        by_cases hqx : q x = true
        · rw [if_pos hqx, if_pos (himp x (List.mem_cons_self x t) hqx)]
        · rw [if_neg hqx]
          omega
      omega

/-- getD agrees with a successful get?. -/
theorem getD_of_get? {α : Type} {l : List α} {i : Nat} {v : α} (dflt : α)
    (h : l.get? i = some v) : l.getD i dflt = v := by
  rw [List.getD_eq_get?, h]
  rfl

/-- In-range positions of a range hold themselves. -/
theorem getD_range {n i : Nat} (dflt : Nat) (h : i < n) :
    (List.range n).getD i dflt = i :=
  getD_of_get? dflt (List.get?_range h)

/-- Removing a position and appending the removed value permutes the list. -/
theorem eraseIdx_append_get_perm {α : Type} :
    ∀ (l : List α) (pos : Nat) (a : α), l.get? pos = some a →
      List.Perm (l.eraseIdx pos ++ [a]) l := by
  intro l
  induction l with
  | nil => intro pos a h; cases h
  | cons x t ih =>
    intro pos a h
    cases pos with
    | zero =>
      have hxa : x = a := by simpa using h
      subst hxa
      rw [List.eraseIdx_cons_zero]
      exact List.perm_append_singleton x t
    | succ pos =>
      have h' : t.get? pos = some a := h
      rw [List.eraseIdx_cons_succ, List.cons_append]
      exact List.Perm.cons x (ih pos a h')

/-- modifyAt preserves length. -/
theorem length_modifyAt {α : Type} (l : List α) (i : Nat) (f : α → α) :
    (modifyAt l i f).length = l.length := by
  unfold modifyAt
  split <;> simp


/-- Characterization of a successful Partition::remove: the position was in
range and the assignment vector lost exactly one slot. -/
theorem partition_remove_some {p : Partition} {pos : Nat} {p1 : Partition}
    (h : p.remove pos = some p1) :
    pos < p.z.length ∧ p1.z.length + 1 = p.z.length := by
  rcases hz : p.z[pos]? with _ | zi
  · simp [Partition.remove, hz] at h
  · have hpos : pos < p.z.length := (List.getElem?_eq_some.mp hz).1
    rcases hc : p.counts[zi]? with _ | c
    · simp [Partition.remove, hz, hc] at h
    · have hlen : (p.z.eraseIdx pos).length = p.z.length - 1 := by
        rw [List.length_eraseIdx, if_pos hpos]
      by_cases h1 : c = 1
      · simp only [Partition.remove, List.get?_eq_getElem?, hz, hc, if_pos h1,
          Option.some.injEq] at h
        subst h
        refine ⟨hpos, ?_⟩
        simp only [List.length_map, hlen]
        omega
      · simp only [Partition.remove, List.get?_eq_getElem?, hz, hc, if_neg h1,
          Option.some.injEq] at h
        subst h
        refine ⟨hpos, ?_⟩
        simp only [hlen]
        omega

/-- Characterization of a successful Partition::append: the assignment vector
gained the appended id at its end. -/
theorem partition_append_some {p : Partition} {zi : Nat} {p1 : Partition}
    (h : p.append zi = some p1) : p1.z = p.z ++ [zi] := by
  by_cases h1 : p.k < zi
  · simp [Partition.append, if_pos h1] at h
  · by_cases h2 : zi = p.k
    · simp only [Partition.append, if_neg h1, if_pos h2, Option.some.injEq] at h
      subst h
      rfl
    · simp only [Partition.append, if_neg h1, if_neg h2, Option.some.injEq] at h
      subst h
      rfl

/-- Characterization of a successful Dpmm::remove: the read slots existed,
the three sequences each lost the slot at pos, and the crp is untouched. -/
theorem dpmm_remove_some {X : Type} [DecidableEq X] {d : Dpmm X} {pos : Nat}
    {x : X} {ix : Nat} {d1 : Dpmm X}
    (h : d.remove pos = some ((x, ix), d1)) :
    d.xs[pos]? = some x ∧ d.ixs[pos]? = some ix ∧
    d1.xs = d.xs.eraseIdx pos ∧ d1.ixs = d.ixs.eraseIdx pos ∧
    pos < d.partition.z.length ∧
    d1.partition.z.length + 1 = d.partition.z.length ∧
    d1.crp = d.crp := by
  rcases hx : d.xs[pos]? with _ | x0
  · simp [Dpmm.remove, hx] at h
  · rcases hix : d.ixs[pos]? with _ | ix0
    · simp [Dpmm.remove, hx, hix] at h
    · rcases hz : d.partition.z[pos]? with _ | zi
      · simp [Dpmm.remove, hx, hix, hz] at h
      · rcases hc : d.partition.counts[zi]? with _ | cnt
        · simp [Dpmm.remove, hx, hix, hz, hc] at h
        · rcases hp : d.partition.remove pos with _ | p1
          · simp [Dpmm.remove, hx, hix, hz, hc, hp] at h
          · obtain ⟨hplen1, hplen2⟩ := partition_remove_some hp
            by_cases h1 : cnt = 1
            · by_cases h2 : zi < d.components.length
              · simp only [Dpmm.remove, List.get?_eq_getElem?, hx, hix, hz, hc,
                  hp, if_pos h1, if_pos h2, Option.some.injEq,
                  Prod.mk.injEq] at h
                obtain ⟨⟨hx1, hix1⟩, hd⟩ := h
                subst hx1
                subst hix1
                subst hd
                exact ⟨rfl, rfl, rfl, rfl, hplen1, hplen2, rfl⟩
              · simp [Dpmm.remove, hx, hix, hz, hc, hp, if_pos h1,
                  if_neg h2] at h
            · rcases hcm : d.components[zi]? with _ | comp
              · simp [Dpmm.remove, hx, hix, hz, hc, hp, if_neg h1, hcm] at h
              · by_cases h3 : 0 < (comp.forget x0).n
                · simp only [Dpmm.remove, List.get?_eq_getElem?, hx, hix, hz,
                    hc, hp, if_neg h1, hcm, if_pos h3, Option.some.injEq,
                    Prod.mk.injEq] at h
                  obtain ⟨⟨hx1, hix1⟩, hd⟩ := h
                  subst hx1
                  subst hix1
                  subst hd
                  exact ⟨rfl, rfl, rfl, rfl, hplen1, hplen2, rfl⟩
                · simp [Dpmm.remove, hx, hix, hz, hc, hp, if_neg h1, hcm,
                    if_neg h3] at h

/-- The value of Dpmm::insert once the partition append is known. -/
theorem dpmm_insert_eq_of_append {X : Type} {d : Dpmm X} {x : X} {ix : Nat}
    {rng : List Nat} {p1 : Partition}
    (hap : d.partition.append (d.insertZi rng) = some p1) :
    d.insert x ix rng = some
      ({ d with xs := d.xs ++ [x], ixs := d.ixs ++ [ix], partition := p1,
                components := modifyAt
                  (if d.insertZi rng = d.partition.k
                   then d.components ++ [ConjugateModel.empty.observe x]
                   else d.components) (d.insertZi rng)
                  (fun c => c.observe x) },
       (rngNext (priorDraw rng)).2) := by
  simp only [Dpmm.insert]
  rw [hap]

/-- Characterization of a successful Dpmm::insert: x, ix and the sampled id
are appended to the three parallel sequences. -/
theorem dpmm_insert_some {X : Type} {d : Dpmm X} {x : X} {ix : Nat}
    {rng : List Nat} {d2 : Dpmm X} {rng2 : List Nat}
    (h : d.insert x ix rng = some (d2, rng2)) :
    d2.xs = d.xs ++ [x] ∧ d2.ixs = d.ixs ++ [ix] ∧
    d2.partition.z.length = d.partition.z.length + 1 ∧ d2.crp = d.crp := by
  rcases hap : d.partition.append (d.insertZi rng) with _ | p1
  · simp [Dpmm.insert, hap] at h
  · rw [dpmm_insert_eq_of_append hap] at h
    simp only [Option.some.injEq, Prod.mk.injEq] at h
    obtain ⟨hd, _⟩ := h
    subst hd
    refine ⟨rfl, rfl, ?_, rfl⟩
    have hz1 := partition_append_some hap
    simp [hz1]

/-- A successful Dpmm::step factors into a successful remove followed by a
successful insert of the removed datum at its original index. -/
theorem dpmm_step_some {X : Type} [DecidableEq X] {d d2 : Dpmm X} {pos : Nat}
    {rng rng2 : List Nat} (h : d.step pos rng = some (d2, rng2)) :
    ∃ x ix d1, d.remove pos = some ((x, ix), d1) ∧
      d1.insert x ix rng = some (d2, rng2) := by
  rcases hr : d.remove pos with _ | r
  · simp [Dpmm.step, hr] at h
  · obtain ⟨⟨x, ix⟩, d1⟩ := r
    refine ⟨x, ix, d1, rfl, ?_⟩
    simpa [Dpmm.step, hr] using h

/-- Claim C5: whenever a complete step (remove at a valid position followed
by insert of the removed datum) completes, the tracking sequence ixs is again
a permutation of 0..n, n being the (unchanged) number of data: the step
erases one tracking entry and pushes exactly that entry back. -/
theorem dpmm_step_preserves_ixs_perm {X : Type} [DecidableEq X]
    (d d2 : Dpmm X) (pos : Nat) (rng rng2 : List Nat)
    (hstep : d.step pos rng = some (d2, rng2))
    (hperm : List.Perm d.ixs (List.range d.n)) :
    List.Perm d2.ixs (List.range d2.n) := by
  obtain ⟨x, ix, d1, hrem, hins⟩ := dpmm_step_some hstep
  obtain ⟨hx, hix, hxs1, hixs1, _, _, _⟩ := dpmm_remove_some hrem
  obtain ⟨hxs2, hixs2, _, _⟩ := dpmm_insert_some hins
  have hposx : pos < d.xs.length := (List.getElem?_eq_some.mp hx).1
  have hn2 : d2.n = d.n := by
    show d2.xs.length = d.xs.length
    rw [hxs2, hxs1, List.length_append, List.length_eraseIdx, if_pos hposx]
    simp only [List.length_singleton]
    omega
  rw [hn2]
  have h2 : d2.ixs = d.ixs.eraseIdx pos ++ [ix] := by
    rw [hixs2, hixs1]
  rw [h2]
  have hixget : d.ixs.get? pos = some ix := by
    rw [List.get?_eq_getElem?]
    exact hix
  exact (eraseIdx_append_get_perm d.ixs pos ix hixget).trans hperm

/-- Claim C5 witness: the concrete one-datum step succeeds and preserves the
tracking permutation. -/
theorem dpmm_step_preserves_ixs_perm_witness :
    D0.step 0 [] = some (D1, []) ∧ List.Perm D0.ixs (List.range D0.n) ∧
    List.Perm D1.ixs (List.range D1.n) :=
  ⟨by decide, by decide,
   dpmm_step_preserves_ixs_perm D0 D1 0 [] [] (by decide) (by decide)⟩

/-- Claim C6: whenever a complete step (remove then insert) completes, the
data sequence, the tracking sequence and the partition's assignment sequence
keep equal lengths: each loses the slot at pos and regains one pushed entry. -/
theorem dpmm_step_preserves_lengths {X : Type} [DecidableEq X]
    (d d2 : Dpmm X) (pos : Nat) (rng rng2 : List Nat)
    (hstep : d.step pos rng = some (d2, rng2))
    (hlen1 : d.xs.length = d.ixs.length)
    (hlen2 : d.xs.length = d.partition.z.length) :
    d2.xs.length = d2.ixs.length ∧ d2.xs.length = d2.partition.z.length := by
  obtain ⟨x, ix, d1, hrem, hins⟩ := dpmm_step_some hstep
  obtain ⟨hx, hix, hxs1, hixs1, hzpos, hzlen1, _⟩ := dpmm_remove_some hrem
  obtain ⟨hxs2, hixs2, hzlen2, _⟩ := dpmm_insert_some hins
  have hposx : pos < d.xs.length := (List.getElem?_eq_some.mp hx).1
  have hposix : pos < d.ixs.length := (List.getElem?_eq_some.mp hix).1
  have e1 : d2.xs.length = d.xs.length - 1 + 1 := by
    rw [hxs2, hxs1, List.length_append, List.length_eraseIdx, if_pos hposx]
    simp only [List.length_singleton]
  have e2 : d2.ixs.length = d.ixs.length - 1 + 1 := by
    rw [hixs2, hixs1, List.length_append, List.length_eraseIdx, if_pos hposix]
    simp only [List.length_singleton]
  constructor
  · omega
  · omega

/-- Claim C6 witness: the concrete one-datum step keeps the three sequences
at equal lengths. -/
theorem dpmm_step_preserves_lengths_witness :
    D0.step 0 [] = some (D1, []) ∧ D0.xs.length = D0.ixs.length ∧
    (D1.xs.length = D1.ixs.length ∧ D1.xs.length = D1.partition.z.length) :=
  ⟨by decide, by decide,
   dpmm_step_preserves_lengths D0 D1 0 [] [] (by decide) (by decide)
     (by decide)⟩

/-- Claim C9: in Dpmm::remove, when the removed datum's cluster is not a
singleton (pre-removal count not 1, and positive), and the component's count
agrees with the partition count (the spec invariant), the forget leaves the
component with a strictly positive count, so the non-singleton branch's
assertion passes and remove returns normally. -/
theorem dpmm_remove_nonsingleton_assert_ok {X : Type} [DecidableEq X]
    (d : Dpmm X) (pos zi cnt : Nat) (x : X) (ix : Nat)
    (comp : ConjugateModel X)
    (hx : d.xs[pos]? = some x) (hix : d.ixs[pos]? = some ix)
    (hz : d.partition.z[pos]? = some zi)
    (hc : d.partition.counts[zi]? = some cnt)
    (hcm : d.components[zi]? = some comp)
    (hinv : comp.n = cnt) (hns : cnt ≠ 1) (hcpos : 0 < cnt) :
    ∃ d1, d.remove pos = some ((x, ix), d1) ∧
      ∃ comp1, d1.components[zi]? = some comp1 ∧ 0 < comp1.n := by
  have hfn : (comp.forget x).n = cnt - 1 := by
    show comp.n - 1 = cnt - 1
    rw [hinv]
  have hppos : 0 < (comp.forget x).n := by omega
  have hprem : d.partition.remove pos = some
      { z := d.partition.z.eraseIdx pos,
        counts := d.partition.counts.set zi (cnt - 1) } := by
    simp only [Partition.remove, List.get?_eq_getElem?, hz, hc, if_neg hns]
  have hrem : d.remove pos = some ((x, ix),
      { d with xs := d.xs.eraseIdx pos, ixs := d.ixs.eraseIdx pos,
               partition := { z := d.partition.z.eraseIdx pos,
                              counts := d.partition.counts.set zi (cnt - 1) },
               components := d.components.set zi (comp.forget x) }) := by
    simp only [Dpmm.remove, List.get?_eq_getElem?, hx, hix, hz, hc, hprem,
      if_neg hns, hcm, if_pos hppos]
  refine ⟨_, hrem, comp.forget x, ?_, hppos⟩
  show (d.components.set zi (comp.forget x))[zi]? = some (comp.forget x)
  rw [List.getElem?_set_self', hcm]
  rfl

/-- Claim C9 witness: removing one member of the concrete two-member cluster
passes the assertion, leaving the component at count 1. -/
theorem dpmm_remove_nonsingleton_assert_ok_witness :
    ((2 : Nat) ≠ 1 ∧ D9.partition.counts[0]? = some 2) ∧
    ∃ d1, D9.remove 0 = some (((7 : Int), 0), d1) ∧
      ∃ comp1, d1.components[0]? = some comp1 ∧ 0 < comp1.n :=
  ⟨⟨by decide, by decide⟩,
   dpmm_remove_nonsingleton_assert_ok D9 0 0 2 7 0 { n := 2, obs := {7, 7} }
     (by decide) (by decide) (by decide) (by decide) (by decide) (by decide)
     (by decide) (by decide)⟩

/-- The sampled cluster id of insert, once the component vector is aligned
with the partition (as the invariant guarantees): a uniform-over-the-stream
residue modulo k + 1. -/
theorem insertZi_eq {X : Type} (d : Dpmm X) (rng : List Nat)
    (hcomp : d.components.length = d.partition.k) :
    d.insertZi rng = (rngNext (priorDraw rng)).1 % (d.partition.k + 1) := by
  unfold Dpmm.insertZi lnPflip
  simp [List.length_zip, hcomp, Partition.k]

/-- Claim C10: with the component vector aligned to the k live clusters, the
sampled id zi never exceeds k; insert completes (no panic), pushes exactly
one new component precisely when zi = k, accesses components[zi] in bounds,
and grows the number of clusters by at most one. -/
theorem dpmm_insert_sampled_id_safe {X : Type} (d : Dpmm X) (x : X) (ix : Nat)
    (rng : List Nat) (hcomp : d.components.length = d.partition.k) :
    d.insertZi rng ≤ d.partition.k ∧
    ∃ d2 rng2, d.insert x ix rng = some (d2, rng2) ∧
      d2.partition.k ≤ d.partition.k + 1 ∧
      d2.components.length = d.components.length
        + (if d.insertZi rng = d.partition.k then 1 else 0) ∧
      d.insertZi rng < d2.components.length := by
  have hzi := insertZi_eq d rng hcomp
  have hle : d.insertZi rng ≤ d.partition.k := by
    rw [hzi]
    exact Nat.lt_succ_iff.mp (Nat.mod_lt _ (Nat.succ_pos _))
  refine ⟨hle, ?_⟩
  by_cases hnew : d.insertZi rng = d.partition.k
  · have hap : d.partition.append (d.insertZi rng) = some
        { z := d.partition.z ++ [d.insertZi rng],
          counts := d.partition.counts ++ [1] } := by
      unfold Partition.append
      rw [if_neg (by omega), if_pos hnew]
    refine ⟨_, _, dpmm_insert_eq_of_append hap, ?_, ?_, ?_⟩
    · simp [Partition.k]
    · simp [length_modifyAt, hnew]
    · simp [length_modifyAt, hnew, hcomp]
  · have hlt : d.insertZi rng < d.partition.k := lt_of_le_of_ne hle hnew
    have hap : d.partition.append (d.insertZi rng) = some
        { z := d.partition.z ++ [d.insertZi rng],
          counts := d.partition.counts.set (d.insertZi rng)
            (d.partition.counts.getD (d.insertZi rng) 0 + 1) } := by
      unfold Partition.append
      rw [if_neg (by omega), if_neg hnew]
    refine ⟨_, _, dpmm_insert_eq_of_append hap, ?_, ?_, ?_⟩
    · simp [Partition.k]
    · simp only [length_modifyAt, if_neg hnew]
      omega
    · simp only [length_modifyAt, if_neg hnew, hcomp]
      exact hlt

/-- Claim C10 witness: at the concrete one-datum model the sampled id is in
range and insert grows the components by exactly one slot. -/
theorem dpmm_insert_sampled_id_safe_witness :
    D0.components.length = D0.partition.k ∧
    (D0.insertZi [] ≤ D0.partition.k ∧
     ∃ d2 rng2, D0.insert 5 0 [] = some (d2, rng2) ∧
       d2.partition.k ≤ D0.partition.k + 1 ∧
       d2.components.length = D0.components.length
         + (if D0.insertZi [] = D0.partition.k then 1 else 0) ∧
       D0.insertZi [] < d2.components.length) :=
  ⟨by decide, dpmm_insert_sampled_id_safe D0 5 0 [] (by decide)⟩

/-- Claim C8: a well-formed Dpmm holding exactly one datum (valid partition,
component vector aligned, sequences aligned), for every concentration
alpha > 0 and every randomness source, ends any step at its only valid
position 0 with exactly one cluster holding the datum: the removal empties
the model, and the lone log-weight forces the sampled id 0, reopening a
single cluster. -/
theorem dpmm_single_datum_step_single_cluster {X : Type} [DecidableEq X]
    (d : Dpmm X) (rng : List Nat)
    (hv : PartValid d.partition)
    (hcomp : d.components.length = d.partition.k)
    (hzlen : d.partition.z.length = d.n)
    (hixlen : d.ixs.length = d.n)
    (hn : d.n = 1)
    (halpha : 0 < d.crp.alpha) :
    ∃ d2 rng2, d.step 0 rng = some (d2, rng2) ∧
      d2.partition.k = 1 ∧ d2.partition.z = [0] ∧ d2.xs = d.xs := by
  obtain ⟨xs, ixs, crp, part, comps⟩ := d
  obtain ⟨z, counts⟩ := part
  simp only [Dpmm.n] at hn hzlen hixlen
  obtain ⟨x, rfl⟩ := List.length_eq_one.mp hn
  obtain ⟨ix, rfl⟩ := List.length_eq_one.mp (hixlen.trans hn)
  obtain ⟨z0, rfl⟩ := List.length_eq_one.mp (hzlen.trans hn)
  have hz0lt : z0 < counts.length := hv.z_lt z0 (by simp)
  have hall : ∀ j, j < counts.length → j = z0 := by
    intro j hj
    have h1 := hv.counts_pos j hj
    have h2 := hv.counts_eq j hj
    rw [h2] at h1
    have h3 : j ∈ [z0] := List.count_pos_iff.mp h1
    simpa using h3
  have hz00 : z0 = 0 := (hall 0 (by omega)).symm
  subst hz00
  have hk1 : counts.length = 1 := by
    by_contra hne
    have h2 : 1 < counts.length := by omega
    have h3 := hall 1 h2
    omega
  obtain ⟨c0, rfl⟩ := List.length_eq_one.mp hk1
  have hc01 : c0 = 1 := by
    have h2 := hv.counts_eq 0 (by simp)
    simpa using h2
  subst hc01
  have hcl : comps.length = 1 := by simpa [Partition.k] using hcomp
  obtain ⟨comp, rfl⟩ := List.length_eq_one.mp hcl
  refine ⟨{ xs := [x], ixs := [ix], crp := crp,
            partition := { z := [0], counts := [1] },
            components := [(ConjugateModel.empty.observe x).observe x] },
          (rngNext (priorDraw rng)).2, ?_, rfl, rfl, rfl⟩
  simp [Dpmm.step, Dpmm.remove, Partition.remove, Dpmm.insert, Dpmm.insertZi,
    lnPflip, Partition.append, Partition.k, modifyAt, priorDraw, Nat.mod_one]

/-- Claim C8 witness: the concrete one-datum model. -/
theorem dpmm_single_datum_step_single_cluster_witness :
    D0.n = 1 ∧ (0 : ℚ) < D0.crp.alpha ∧
    ∃ d2 rng2, D0.step 0 [] = some (d2, rng2) ∧
      d2.partition.k = 1 ∧ d2.partition.z = [0] ∧ d2.xs = D0.xs :=
  ⟨rfl, by decide,
   dpmm_single_datum_step_single_cluster D0 []
     ⟨by decide, by decide, by decide⟩ rfl rfl rfl rfl (by decide)⟩

/-- A list permuting range of its own length has no duplicates. -/
theorem perm_range_nodup {l : List Nat}
    (h : List.Perm l (List.range l.length)) : l.Nodup :=
  h.symm.nodup (List.nodup_range _)

/-- In a list permuting the range of its own length, every member is a valid
position. -/
theorem perm_range_lt {l : List Nat} (h : List.Perm l (List.range l.length))
    {v : Nat} (hv : v ∈ l) : v < l.length := by
  have h2 := h.mem_iff.mp hv
  simpa using h2

/-- An in-range get? returns the getD value, whatever the default. -/
theorem get?_eq_getD_of_lt {α : Type} (l : List α) (dflt : α) {i : Nat}
    (h : i < l.length) : l.get? i = some (l.getD i dflt) := by
  rcases hv : l.get? i with _ | v
  · have h2 : l.length ≤ i := List.get?_eq_none.mp hv
    omega
  · rw [getD_of_get? dflt hv]

/-- The cycle-following measure is bounded by the length. -/
theorem misplaced_le (l : List Nat) : misplaced l ≤ l.length := by
  unfold misplaced
  have h := List.countP_le_length (fun m => l.getD m 0 != m)
    (l := List.range l.length)
  simpa using h

/-- When the measure is zero, every position already holds its own index. -/
theorem fixed_of_misplaced_zero {l : List Nat} (h : misplaced l = 0) :
    ∀ m, m < l.length → l.getD m 0 = m := by
  intro m hm
  have h2 := List.countP_eq_zero.mp h m (List.mem_range.mpr hm)
  simpa using h2

/-- Inversion of a successful zip lookup. -/
theorem zip_get?_inv {α β : Type} {l1 : List α} {l2 : List β} {m : Nat}
    {a : α} {b : β} (h : (l1.zip l2).get? m = some (a, b)) :
    l1.get? m = some a ∧ l2.get? m = some b := by
  rw [get?_zip_eq] at h
  rcases h1 : l1.get? m with _ | a0 <;> rw [h1] at h
  · cases h
  · rcases h2 : l2.get? m with _ | b0 <;> rw [h2] at h
    · cases h
    · have h3 : ((a0, b0) : α × β) = (a, b) := by simpa using h
      injection h3 with h4 h5
      subst h4
      subst h5
      exact ⟨rfl, rfl⟩

/-- Unfolding equation: exhausted fuel. -/
theorem sortWhile_zero {X : Type} (i : Nat) (d : Dpmm X) :
    sortWhile 0 i d = (d, 0) := rfl

/-- Unfolding equation: the guard is already false. -/
theorem sortWhile_succ_of_fix {X : Type} (fuel i : Nat) (d : Dpmm X)
    (h : d.ixs.getD i i = i) : sortWhile (fuel + 1) i d = (d, 0) := by
  simp only [sortWhile]
  rw [if_pos h]

/-- Unfolding equation: the guard holds, one swap happens. -/
theorem sortWhile_succ_of_nfix {X : Type} (fuel i : Nat) (d : Dpmm X)
    (h : ¬ d.ixs.getD i i = i) :
    sortWhile (fuel + 1) i d =
      ((sortWhile fuel i (d.swapAt i (d.ixs.getD i i))).1,
       (sortWhile fuel i (d.swapAt i (d.ixs.getD i i))).2 + 1) := by
  simp only [sortWhile]
  rw [if_neg h]

/-- Unfolding equation: empty position list. -/
theorem sortLoop_nil {X : Type} (fuel : Nat) (d : Dpmm X) :
    sortLoop fuel [] d = (d, 0) := rfl

/-- Unfolding equation: one position then the rest. -/
theorem sortLoop_cons {X : Type} (fuel i : Nat) (rest : List Nat)
    (d : Dpmm X) :
    sortLoop fuel (i :: rest) d =
      ((sortLoop fuel rest (sortWhile fuel i d).1).1,
       (sortWhile fuel i d).2 + (sortLoop fuel rest (sortWhile fuel i d).1).2) :=
  rfl

/-- One cycle-following swap strictly decreases the number of misplaced
positions: position j (the value stored at i) becomes home, position i gets
the old value of j, everything else is untouched. -/
theorem swap_misplaced_lt {l : List Nat} {i j v2 : Nat}
    (hperm : List.Perm l (List.range l.length))
    (hi : l.get? i = some j) (hij : j ≠ i)
    (hj : l.get? j = some v2) (hv2 : v2 ≠ j) :
    misplaced (listSwap l i j) < misplaced l := by
  have hlen : (listSwap l i j).length = l.length := length_listSwap l i j
  have hchar := get?_listSwap_of_ne (fun h => hij h.symm) hi hj
  have hjlt : j < l.length := perm_range_lt hperm (List.get?_mem hi)
  unfold misplaced
  rw [hlen]
  apply countP_lt_of_witness _ _ (List.range l.length) ?_ j
    (List.mem_range.mpr hjlt) ?_ ?_
  · intro m _ hq
    rw [bne_iff_ne] at hq ⊢
    intro hfix
    apply hq
    have hmlt : m < l.length := by
      by_contra hge
      have h2 : l.length ≤ m := by omega
      rw [List.getD_eq_get?, List.get?_eq_none.mpr h2] at hfix
      have h3 : m = 0 := hfix.symm
      omega
    have hm? : l.get? m = some m := by
      rw [get?_eq_getD_of_lt l 0 hmlt, hfix]
    have hmi : m ≠ i := by
      intro hmi
      subst hmi
      rw [hm?] at hi
      have h4 : m = j := by simpa using hi
      omega
    have hmj : m ≠ j := by
      intro hmj
      subst hmj
      rw [hm?] at hj
      have h4 : m = v2 := by simpa using hj
      omega
    rw [List.getD_eq_get?, hchar m, if_neg hmj, if_neg hmi, hm?]
    rfl
  · rw [bne_iff_ne, getD_of_get? 0 hj]
    exact hv2
  · have h2 : (listSwap l i j).get? j = some j := by
      rw [hchar j, if_pos rfl]
    rw [getD_of_get? 0 h2]
    simp

/-- A successful pointwise read of a triple zip. -/
theorem get?_zip3 {α β γ : Type} {l1 : List α} {l2 : List β} {l3 : List γ}
    {m : Nat} {a : α} {b : β} {c : γ} (h1 : l1.get? m = some a)
    (h2 : l2.get? m = some b) (h3 : l3.get? m = some c) :
    (l1.zip (l2.zip l3)).get? m = some (a, (b, c)) := by
  rw [get?_zip_eq, h1, get?_zip_eq, h2, h3]
  rfl

/-- The simultaneous swap of the three parallel sequences (Dpmm::sort's loop
body) is the swap of their positional fusion. -/
theorem triples_swapAt {X : Type} (d : Dpmm X) {i j : Nat}
    (hz : d.partition.z.length = d.ixs.length)
    (hx : d.xs.length = d.ixs.length)
    (hi : i < d.ixs.length) (hj : j < d.ixs.length) (hij : i ≠ j) :
    (d.swapAt i j).triples = listSwap d.triples i j := by
  rcases hai : d.ixs.get? i with _ | ai
  · exact absurd (List.get?_eq_none.mp hai) (by omega)
  rcases haj : d.ixs.get? j with _ | aj
  · exact absurd (List.get?_eq_none.mp haj) (by omega)
  rcases hbi : d.partition.z.get? i with _ | bi
  · exact absurd (List.get?_eq_none.mp hbi) (by omega)
  rcases hbj : d.partition.z.get? j with _ | bj
  · exact absurd (List.get?_eq_none.mp hbj) (by omega)
  rcases hci : d.xs.get? i with _ | ci
  · exact absurd (List.get?_eq_none.mp hci) (by omega)
  rcases hcj : d.xs.get? j with _ | cj
  · exact absurd (List.get?_eq_none.mp hcj) (by omega)
  have hti : d.triples.get? i = some (ai, (bi, ci)) := by
    show (d.ixs.zip (d.partition.z.zip d.xs)).get? i = _
    exact get?_zip3 hai hbi hci
  have htj : d.triples.get? j = some (aj, (bj, cj)) := by
    show (d.ixs.zip (d.partition.z.zip d.xs)).get? j = _
    exact get?_zip3 haj hbj hcj
  have hcharI := get?_listSwap_of_ne hij hai haj
  have hcharZ := get?_listSwap_of_ne hij hbi hbj
  have hcharX := get?_listSwap_of_ne hij hci hcj
  have hcharT := get?_listSwap_of_ne hij hti htj
  apply List.ext
  intro m
  have hL : (d.swapAt i j).triples
      = (listSwap d.ixs i j).zip
          ((listSwap d.partition.z i j).zip (listSwap d.xs i j)) := rfl
  rw [hL, hcharT m]
  rcases eq_or_ne m j with rfl | hmj
  · rw [if_pos rfl]
    have e1 : (listSwap d.ixs i m).get? m = some ai := by
      rw [hcharI m, if_pos rfl]
    have e2 : (listSwap d.partition.z i m).get? m = some bi := by
      rw [hcharZ m, if_pos rfl]
    have e3 : (listSwap d.xs i m).get? m = some ci := by
      rw [hcharX m, if_pos rfl]
    exact get?_zip3 e1 e2 e3
  · rw [if_neg hmj]
    rcases eq_or_ne m i with rfl | hmi
    · rw [if_pos rfl]
      have e1 : (listSwap d.ixs m j).get? m = some aj := by
        rw [hcharI m, if_neg hmj, if_pos rfl]
      have e2 : (listSwap d.partition.z m j).get? m = some bj := by
        rw [hcharZ m, if_neg hmj, if_pos rfl]
      have e3 : (listSwap d.xs m j).get? m = some cj := by
        rw [hcharX m, if_neg hmj, if_pos rfl]
      exact get?_zip3 e1 e2 e3
    · rw [if_neg hmi]
      have e1 : (listSwap d.ixs i j).get? m = d.ixs.get? m := by
        rw [hcharI m, if_neg hmj, if_neg hmi]
      have e2 : (listSwap d.partition.z i j).get? m = d.partition.z.get? m := by
        rw [hcharZ m, if_neg hmj, if_neg hmi]
      have e3 : (listSwap d.xs i j).get? m = d.xs.get? m := by
        rw [hcharX m, if_neg hmj, if_neg hmi]
      have hTm : d.triples.get? m
          = (d.ixs.get? m).bind fun a =>
              ((d.partition.z.get? m).bind fun b =>
                (d.xs.get? m).map fun c => (b, c)).map fun bc => (a, bc) := by
        show (d.ixs.zip (d.partition.z.zip d.xs)).get? m = _
        rw [get?_zip_eq, get?_zip_eq]
      have hLm : ((listSwap d.ixs i j).zip
          ((listSwap d.partition.z i j).zip (listSwap d.xs i j))).get? m
          = (d.ixs.get? m).bind fun a =>
              ((d.partition.z.get? m).bind fun b =>
                (d.xs.get? m).map fun c => (b, c)).map fun bc => (a, bc) := by
        rw [get?_zip_eq, e1, get?_zip_eq, e2, e3]
      rw [hLm, hTm]

/-- Full specification of the inner while loop of Dpmm::sort at position i,
given enough fuel (the misplaced count): the loop reaches its guard-false
exit with position i holding its own index; the tracking sequence is merely
permuted and the fused triples merely permuted (so the loop only reorders the
three parallel sequences together); lengths and the untouched fields are
preserved; positions other than i that were already home stay home; and the
number of swaps performed plus the remaining misplaced count never exceeds
the starting misplaced count. -/
theorem sortWhile_spec {X : Type} :
    ∀ (fuel : Nat) (d : Dpmm X) (i : Nat),
      misplaced d.ixs ≤ fuel →
      List.Perm d.ixs (List.range d.ixs.length) →
      d.partition.z.length = d.ixs.length →
      d.xs.length = d.ixs.length →
      i < d.ixs.length →
      (sortWhile fuel i d).1.ixs.getD i 0 = i ∧
      List.Perm (sortWhile fuel i d).1.ixs d.ixs ∧
      List.Perm (sortWhile fuel i d).1.triples d.triples ∧
      (sortWhile fuel i d).1.ixs.length = d.ixs.length ∧
      (sortWhile fuel i d).1.partition.z.length = d.partition.z.length ∧
      (sortWhile fuel i d).1.xs.length = d.xs.length ∧
      (sortWhile fuel i d).1.partition.counts = d.partition.counts ∧
      (sortWhile fuel i d).1.components = d.components ∧
      (sortWhile fuel i d).1.crp = d.crp ∧
      (∀ m, m ≠ i → d.ixs.getD m 0 = m →
        (sortWhile fuel i d).1.ixs.getD m 0 = m) ∧
      (sortWhile fuel i d).2 + misplaced (sortWhile fuel i d).1.ixs
        ≤ misplaced d.ixs := by
  intro fuel
  induction fuel with
  | zero =>
    intro d i hfuel hperm hz hx hi
    have h0 : misplaced d.ixs = 0 := Nat.le_zero.mp hfuel
    have hfix := fixed_of_misplaced_zero h0
    rw [sortWhile_zero]
    refine ⟨hfix i hi, List.Perm.refl _, List.Perm.refl _, rfl, rfl, rfl, rfl,
      rfl, rfl, fun m _ hm => hm, ?_⟩
    simp
  | succ fuel ih =>
    intro d i hfuel hperm hz hx hi
    by_cases hguard : d.ixs.getD i i = i
    · rw [sortWhile_succ_of_fix fuel i d hguard]
      have hfixi : d.ixs.getD i 0 = i := by
        have h2 := get?_eq_getD_of_lt d.ixs i hi
        rw [hguard] at h2
        exact getD_of_get? 0 h2
      refine ⟨hfixi, List.Perm.refl _, List.Perm.refl _, rfl, rfl, rfl, rfl,
        rfl, rfl, fun m _ hm => hm, ?_⟩
      simp
    · rw [sortWhile_succ_of_nfix fuel i d hguard]
      dsimp only
      set j := d.ixs.getD i i with hjdef
      have hij : j ≠ i := hguard
      have hji : d.ixs.get? i = some j := by
        rw [get?_eq_getD_of_lt d.ixs i hi, hjdef]
      have hjmem : j ∈ d.ixs := List.get?_mem hji
      have hjlen : j < d.ixs.length := perm_range_lt hperm hjmem
      have hnodup : d.ixs.Nodup := perm_range_nodup hperm
      rcases hjv : d.ixs.get? j with _ | v2
      · exact absurd (List.get?_eq_none.mp hjv) (by omega)
      have hv2 : v2 ≠ j := by
        intro hv
        subst hv
        exact hij ((nodup_get?_inj hnodup hji hjv).symm)
      have hmis : misplaced (d.swapAt i j).ixs < misplaced d.ixs := by
        show misplaced (listSwap d.ixs i j) < misplaced d.ixs
        exact swap_misplaced_lt hperm hji hij hjv hv2
      have hlen1 : (d.swapAt i j).ixs.length = d.ixs.length :=
        length_listSwap d.ixs i j
      have hperm1 : List.Perm (d.swapAt i j).ixs d.ixs :=
        listSwap_perm d.ixs i j
      have hperm1r : List.Perm (d.swapAt i j).ixs
          (List.range (d.swapAt i j).ixs.length) := by
        rw [hlen1]
        exact hperm1.trans hperm
      have hz1 : (d.swapAt i j).partition.z.length
          = (d.swapAt i j).ixs.length := by
        show (listSwap d.partition.z i j).length = (listSwap d.ixs i j).length
        rw [length_listSwap, length_listSwap, hz]
      have hx1 : (d.swapAt i j).xs.length = (d.swapAt i j).ixs.length := by
        show (listSwap d.xs i j).length = (listSwap d.ixs i j).length
        rw [length_listSwap, length_listSwap, hx]
      have hi1 : i < (d.swapAt i j).ixs.length := by
        rw [hlen1]
        exact hi
      have hf1 : misplaced (d.swapAt i j).ixs ≤ fuel := by omega
      obtain ⟨c1, c2, c3, c4, c5, c6, c7, c8, c9, c10, c11⟩ :=
        ih (d.swapAt i j) i hf1 hperm1r hz1 hx1 hi1
      have htr : (d.swapAt i j).triples = listSwap d.triples i j :=
        triples_swapAt d hz hx hi hjlen (fun h => hij h.symm)
      have hchar := get?_listSwap_of_ne (fun h => hij h.symm) hji hjv
      refine ⟨c1, c2.trans hperm1, ?_, ?_, ?_, ?_, ?_, ?_, ?_, ?_, ?_⟩
      · refine c3.trans ?_
        rw [htr]
        exact listSwap_perm _ i j
      · rw [c4, hlen1]
      · rw [c5]
        show (listSwap d.partition.z i j).length = _
        rw [length_listSwap]
      · rw [c6]
        show (listSwap d.xs i j).length = _
        rw [length_listSwap]
      · rw [c7]
        rfl
      · rw [c8]
        rfl
      · rw [c9]
        rfl
      · intro m hmi hfixm
        have hmj : m ≠ j := by
          intro hmj
          subst hmj
          rw [getD_of_get? 0 hjv] at hfixm
          exact hv2 hfixm
        have hmlt : m < d.ixs.length := by
          by_contra hge
          rw [List.getD_eq_get?, List.get?_eq_none.mpr (by omega)] at hfixm
          have h3 : m = 0 := hfixm.symm
          omega
        have hfix1 : (d.swapAt i j).ixs.getD m 0 = m := by
          have h2 : (d.swapAt i j).ixs.get? m = d.ixs.get? m := by
            show (listSwap d.ixs i j).get? m = _
            rw [hchar m, if_neg hmj, if_neg hmi]
          rw [List.getD_eq_get?, h2, ← List.getD_eq_get?, hfixm]
        exact c10 m hmi hfix1
      · omega

/-- Full specification of the outer for loop of Dpmm::sort over a list of
in-range positions: the tracking sequence and the fused triples are merely
permuted, lengths and untouched fields preserved; every listed position ends
home and homes are never lost; total swaps plus remaining misplaced count
never exceed the starting misplaced count. -/
theorem sortLoop_spec {X : Type} :
    ∀ (rest : List Nat) (fuel : Nat) (d : Dpmm X),
      misplaced d.ixs ≤ fuel →
      List.Perm d.ixs (List.range d.ixs.length) →
      d.partition.z.length = d.ixs.length →
      d.xs.length = d.ixs.length →
      (∀ m, m ∈ rest → m < d.ixs.length) →
      List.Perm (sortLoop fuel rest d).1.ixs d.ixs ∧
      List.Perm (sortLoop fuel rest d).1.triples d.triples ∧
      (sortLoop fuel rest d).1.ixs.length = d.ixs.length ∧
      (sortLoop fuel rest d).1.partition.z.length = d.partition.z.length ∧
      (sortLoop fuel rest d).1.xs.length = d.xs.length ∧
      (sortLoop fuel rest d).1.partition.counts = d.partition.counts ∧
      (sortLoop fuel rest d).1.components = d.components ∧
      (sortLoop fuel rest d).1.crp = d.crp ∧
      (∀ m, (m ∈ rest ∨ d.ixs.getD m 0 = m) →
        (sortLoop fuel rest d).1.ixs.getD m 0 = m) ∧
      (sortLoop fuel rest d).2 + misplaced (sortLoop fuel rest d).1.ixs
        ≤ misplaced d.ixs := by
  intro rest
  induction rest with
  | nil =>
    intro fuel d hfuel hperm hz hx hmem
    rw [sortLoop_nil]
    refine ⟨List.Perm.refl _, List.Perm.refl _, rfl, rfl, rfl, rfl, rfl, rfl,
      ?_, ?_⟩
    · intro m hm
      rcases hm with hm | hm
      · exact absurd hm (List.not_mem_nil m)
      · exact hm
    · simp
  | cons i rest ih =>
    intro fuel d hfuel hperm hz hx hmem
    have hi : i < d.ixs.length := hmem i (List.mem_cons_self i rest)
    obtain ⟨w1, w2, w3, w4, w5, w6, w7, w8, w9, w10, w11⟩ :=
      sortWhile_spec fuel d i hfuel hperm hz hx hi
    have hf1 : misplaced (sortWhile fuel i d).1.ixs ≤ fuel := by omega
    have hperm1 : List.Perm (sortWhile fuel i d).1.ixs
        (List.range (sortWhile fuel i d).1.ixs.length) := by
      rw [w4]
      exact w2.trans hperm
    have hz1 : (sortWhile fuel i d).1.partition.z.length
        = (sortWhile fuel i d).1.ixs.length := by
      rw [w5, w4, hz]
    have hx1 : (sortWhile fuel i d).1.xs.length
        = (sortWhile fuel i d).1.ixs.length := by
      rw [w6, w4, hx]
    have hmem1 : ∀ m, m ∈ rest → m < (sortWhile fuel i d).1.ixs.length := by
      rw [w4]
      exact fun m hm => hmem m (List.mem_cons_of_mem i hm)
    obtain ⟨v1, v2, v3, v4, v5, v6, v7, v8, v9, v10⟩ :=
      ih fuel (sortWhile fuel i d).1 hf1 hperm1 hz1 hx1 hmem1
    rw [sortLoop_cons]
    dsimp only
    refine ⟨v1.trans w2, v2.trans w3, ?_, ?_, ?_, ?_, ?_, ?_, ?_, ?_⟩
    · rw [v3, w4]
    · rw [v4, w5]
    · rw [v5, w6]
    · rw [v6, w7]
    · rw [v7, w8]
    · rw [v8, w9]
    · intro m hm
      rcases hm with hm | hm
      · rcases List.mem_cons.mp hm with rfl | hm2
        · exact v9 _ (Or.inr w1)
        · exact v9 m (Or.inl hm2)
      · by_cases hmi : m = i
        · subst hmi
          exact v9 _ (Or.inr w1)
        · exact v9 m (Or.inr (w10 m hmi hm))
    · omega

/-- Dpmm::sort under the tracking-permutation invariant: the fuel n given to
every inner loop suffices (each exits by its guard), the tracking sequence
ends exactly [0, 1, ..., n-1], the three parallel sequences are only
reordered together (fused triples permuted), lengths are preserved, and at
most n swaps happen in total. -/
theorem dpmm_sort_spec {X : Type} (d : Dpmm X)
    (hperm : List.Perm d.ixs (List.range d.n))
    (hz : d.partition.z.length = d.n) :
    (d.sort).1.ixs = List.range d.n ∧
    List.Perm (d.sort).1.triples d.triples ∧
    (d.sort).1.xs.length = d.n ∧
    (d.sort).1.partition.z.length = d.n ∧
    (d.sort).1.n = d.n ∧
    (d.sort).2 ≤ d.n := by
  have hlenix : d.ixs.length = d.n := by
    have h2 := hperm.length_eq
    simpa using h2
  have hxlen : d.xs.length = d.ixs.length := by
    rw [hlenix]
    rfl
  have hperm2 : List.Perm d.ixs (List.range d.ixs.length) := by
    rw [hlenix]
    exact hperm
  have hz2 : d.partition.z.length = d.ixs.length := by
    rw [hlenix, hz]
  have hfuel : misplaced d.ixs ≤ d.n := hlenix ▸ misplaced_le d.ixs
  have hmem : ∀ m, m ∈ List.range d.n → m < d.ixs.length := by
    intro m hm
    rw [hlenix]
    exact List.mem_range.mp hm
  obtain ⟨v1, v2, v3, v4, v5, v6, v7, v8, v9, v10⟩ :=
    sortLoop_spec (List.range d.n) d.n d hfuel hperm2 hz2 hxlen hmem
  have hsort : d.sort = sortLoop d.n (List.range d.n) d := rfl
  rw [hsort]
  refine ⟨?_, v2, ?_, ?_, ?_, ?_⟩
  · apply List.ext
    intro m
    by_cases hm : m < d.n
    · have hfixm : (sortLoop d.n (List.range d.n) d).1.ixs.getD m 0 = m :=
        v9 m (Or.inl (List.mem_range.mpr hm))
      have hmlt : m < (sortLoop d.n (List.range d.n) d).1.ixs.length := by
        rw [v3, hlenix]
        exact hm
      rw [get?_eq_getD_of_lt _ 0 hmlt, hfixm, List.get?_range hm]
    · rw [List.get?_eq_none.mpr (by rw [v3, hlenix]; omega),
        List.get?_eq_none.mpr (by simp [List.length_range]; omega)]
  · rw [v5, hxlen, hlenix]
  · rw [v4, hz]
  · show (sortLoop d.n (List.range d.n) d).1.xs.length = d.n
    rw [v5, hxlen, hlenix]
  · omega

/-- A while loop whose guard is already false does nothing. -/
theorem sortWhile_of_fixed {X : Type} (fuel i : Nat) (d : Dpmm X)
    (h : d.ixs.getD i i = i) : sortWhile fuel i d = (d, 0) := by
  cases fuel with
  | zero => rfl
  | succ fuel => exact sortWhile_succ_of_fix fuel i d h

/-- The outer loop over positions that are all already home does nothing. -/
theorem sortLoop_of_fixed {X : Type} :
    ∀ (rest : List Nat) (fuel : Nat) (d : Dpmm X),
      (∀ m, m ∈ rest → d.ixs.getD m m = m) →
      sortLoop fuel rest d = (d, 0) := by
  intro rest
  induction rest with
  | nil =>
    intro fuel d _
    rfl
  | cons i rest ih =>
    intro fuel d h
    rw [sortLoop_cons,
      sortWhile_of_fixed fuel i d (h i (List.mem_cons_self i rest))]
    dsimp only
    rw [ih fuel d (fun m hm => h m (List.mem_cons_of_mem i hm))]
    rfl

/-- A sort of an already-restored model performs no swaps and changes
nothing. -/
theorem dpmm_sort_of_identity {X : Type} (d : Dpmm X)
    (h : d.ixs = List.range d.n) : d.sort = (d, 0) := by
  have h2 : ∀ m, m ∈ List.range d.n → d.ixs.getD m m = m := by
    intro m hm
    rw [h]
    exact getD_range m (List.mem_range.mp hm)
  exact sortLoop_of_fixed (List.range d.n) d.n d h2

/-- Claim C4: whenever the tracking sequence is a permutation of 0..n and the
assignment vector is index-aligned with it, after sort() the tracking
sequence equals [0, 1, ..., n-1] and each datum together with its assignment
sits at the datum's original submission position: the sorted data (resp.
assignments) at position ixs[p] are the pre-sort data (resp. assignments) at
position p. -/
theorem dpmm_sort_restores_original_order {X : Type} (d : Dpmm X)
    (hperm : List.Perm d.ixs (List.range d.n))
    (hz : d.partition.z.length = d.n) :
    (d.sort).1.ixs = List.range d.n ∧
    ∀ p, p < d.n →
      (d.sort).1.xs.get? (d.ixs.getD p 0) = d.xs.get? p ∧
      (d.sort).1.partition.z.get? (d.ixs.getD p 0)
        = d.partition.z.get? p := by
  obtain ⟨s1, s2, s3, s4, s5, s6⟩ := dpmm_sort_spec d hperm hz
  refine ⟨s1, ?_⟩
  intro p hp
  have hlenix : d.ixs.length = d.n := by
    simpa using hperm.length_eq
  have hxdlen : d.xs.length = d.n := rfl
  have hpix : p < d.ixs.length := by omega
  have hm? : d.ixs.get? p = some (d.ixs.getD p 0) :=
    get?_eq_getD_of_lt d.ixs 0 hpix
  set m := d.ixs.getD p 0 with hmdef
  rcases hzp : d.partition.z.get? p with _ | b
  · exact absurd (List.get?_eq_none.mp hzp) (by omega)
  rcases hxp : d.xs.get? p with _ | c
  · exact absurd (List.get?_eq_none.mp hxp) (by omega)
  have htrip : d.triples.get? p = some (m, (b, c)) := by
    show (d.ixs.zip (d.partition.z.zip d.xs)).get? p = _
    exact get?_zip3 hm? hzp hxp
  have hmem : (m, (b, c)) ∈ (d.sort).1.triples :=
    s2.mem_iff.mpr (List.get?_mem htrip)
  obtain ⟨q, hq⟩ := List.mem_iff_get?.mp hmem
  obtain ⟨hq3, hq4⟩ := zip_get?_inv
    (show ((d.sort).1.ixs.zip
      ((d.sort).1.partition.z.zip (d.sort).1.xs)).get? q
      = some (m, (b, c)) from hq)
  obtain ⟨hq5, hq6⟩ := zip_get?_inv hq4
  rw [s1] at hq3
  have hqlt : q < d.n := by
    have h2 := (List.get?_eq_some.mp hq3).1
    simpa using h2
  have hqm : q = m := by
    rw [List.get?_range hqlt] at hq3
    simpa using hq3
  subst hqm
  constructor
  · rw [hq6]
  · rw [hq5]

/-- Claim C4 witness: the concrete out-of-order two-datum model. -/
theorem dpmm_sort_restores_original_order_witness :
    List.Perm D4.ixs (List.range D4.n) ∧
    ((D4.sort).1.ixs = List.range D4.n ∧
     ∀ p, p < D4.n →
       (D4.sort).1.xs.get? (D4.ixs.getD p 0) = D4.xs.get? p ∧
       (D4.sort).1.partition.z.get? (D4.ixs.getD p 0)
         = D4.partition.z.get? p) :=
  ⟨by decide, dpmm_sort_restores_original_order D4 (by decide) (by decide)⟩

/-- Claim C7: given the tracking sequence is a permutation of 0..n (with the
assignment vector aligned), sort() terminates -- every inner cycle-following
while loop reaches its guard-false exit within the n-swap budget, certified
by the tracking sequence ending as [0, 1, ..., n-1] -- with at most n swaps
performed in total, and a second consecutive sort() performs zero swaps. -/
theorem dpmm_sort_linear_swaps_and_idempotent {X : Type} (d : Dpmm X)
    (hperm : List.Perm d.ixs (List.range d.n))
    (hz : d.partition.z.length = d.n) :
    (d.sort).1.ixs = List.range d.n ∧
    (d.sort).2 ≤ d.n ∧
    ((d.sort).1.sort).2 = 0 := by
  obtain ⟨s1, s2, s3, s4, s5, s6⟩ := dpmm_sort_spec d hperm hz
  refine ⟨s1, s6, ?_⟩
  have h2 : (d.sort).1.ixs = List.range (d.sort).1.n := by
    rw [s1, s5]
  rw [dpmm_sort_of_identity (d.sort).1 h2]

/-- Claim C7 witness: the concrete out-of-order two-datum model. -/
theorem dpmm_sort_linear_swaps_and_idempotent_witness :
    List.Perm D4.ixs (List.range D4.n) ∧
    ((D4.sort).1.ixs = List.range D4.n ∧ (D4.sort).2 ≤ D4.n ∧
     ((D4.sort).1.sort).2 = 0) :=
  ⟨by decide,
   dpmm_sort_linear_swaps_and_idempotent D4 (by decide) (by decide)⟩
